import Mathlib

/-!
Verification of the tiny-trie packed-trie decoder.

The repository ships a read-only dictionary structure: a trie serialized
into a dense bit-packed payload of fixed-width node records, preceded by a
header (format version, scaling offset, alphabet table).  The decoder
offers `test` (membership / prefix / wildcard matching), `search`
(enumeration of matches), `hasChar` (alphabet lookup) and
`getNodeAtPointer` (single-record decode).

The repository's `src/` tree contains only the test suite
(`src/PackedTrie.test.ts`) and the type declarations
(`lib/PackedTrie.d.ts`); the implementation file itself is absent, as is
the builder/encoder (which the design document treats as an external
producer).  The definitions below are therefore modelled from the design
document, constrained by the declared interfaces and by the concrete
behaviour asserted in the test suite.  Bit operations are embedded over
`Nat`: `x >> k` is `x / 2 ^ k` and `x & (2 ^ w - 1)` is `x % 2 ^ w`.
-/

namespace TinyTrie

set_option maxRecDepth 200000

/-- The reserved sentinel character: alphabet code 0, marking "end of word" /
"no further character".  Distinct from any real input character. -/
def SENTINEL : Char := Char.ofNat 0

/-- Modelled from the spec: the reader's own compiled-in format version
constant (the implementation file holding the literal is absent from
`src/`); a fixed configuration value compared against the blob's stamp. -/
def READER_VERSION : Nat := 0

/-- A JavaScript runtime value, either a boolean or a number.  The declared
interface `IPackedTrieNode` types the `last` field as `number`, while the
test suite observes booleans; this small value universe lets the embedded
decoder record which of the two the field actually carries. -/
inductive JSVal where
  | bool (b : Bool)
  | num (n : Nat)
deriving DecidableEq

/-- JavaScript truthiness of a `JSVal` (how a `while`/`if` condition reads it). -/
def JSVal.truthy : JSVal → Bool
  | .bool b => b
  | .num n => decide (n ≠ 0)

/-- One decoded node record: the edge character, the last-sibling flag, and
the absolute pointer to the children block (`none` encodes the JS `null`). -/
structure PackedTrieNode where
  char : Char
  last : JSVal
  childrenPointer : Option Nat
deriving DecidableEq

/-- The two error classes of the design: only a format-version mismatch at
construction time is ever raised. -/
inductive TrieError where
  | formatVersionMismatch
deriving DecidableEq

/-- Modelled from the spec: the logical content of an encoded blob after the
out-of-scope reversible text encoding has been undone — the header fields
(version stamp, scaling offset, alphabet listing in first-occurrence order
with the sentinel implicit, pointer-field capacity) and the payload of
fixed-width records, each record one `Nat` word. -/
structure Blob where
  version : Nat
  offset : Nat
  alphabet : List Char
  ptrWidth : Nat
  payload : List Nat

/-- The decoder state produced by a successful construction: the scaling
offset, the inverse alphabet table (index = code, entry 0 the sentinel),
the two derived field widths and the payload. -/
structure PackedTrie where
  offset : Nat
  inverseTable : List Char
  charWidth : Nat
  ptrWidth : Nat
  payload : List Nat

/-- Smallest `w` with `n < 2 ^ w` (the number of bits needed to store values
`0..n`); written with an explicit structural fuel so that it evaluates by
kernel reduction. -/
def bitsNeededAux : Nat → Nat → Nat
  | 0, _ => 0
  | fuel + 1, n => if n = 0 then 0 else bitsNeededAux fuel (n / 2) + 1

/-- Smallest `w` with `n < 2 ^ w`; this is `ceil(log2(n + 1))`. -/
def bitsNeeded (n : Nat) : Nat := bitsNeededAux n n

/-- The header's `lastMask`: the flag occupies bit 0. -/
def PackedTrie.lastMask (_ : PackedTrie) : Nat := 1

/-- The header's `pointerShift`: the pointer field starts at bit 1. -/
def PackedTrie.pointerShift (_ : PackedTrie) : Nat := 1

/-- The header's `pointerMask`: `ptrWidth` low bits. -/
def PackedTrie.pointerMask (t : PackedTrie) : Nat := 2 ^ t.ptrWidth - 1

/-- The header's `charShift`: the character field sits above flag and pointer. -/
def PackedTrie.charShift (t : PackedTrie) : Nat := 1 + t.ptrWidth

/-- The header's `charMask`: `charWidth` low bits. -/
def PackedTrie.charMask (t : PackedTrie) : Nat := 2 ^ t.charWidth - 1

/-- Total width of one record, in bits. -/
def PackedTrie.wordWidth (t : PackedTrie) : Nat := t.charWidth + 1 + t.ptrWidth

/-- Modelled from the spec: the constructor (absent from `src/`).  It checks
the blob's version stamp against the reader's compiled-in version and fails
with `formatVersionMismatch` before anything else is built; otherwise it
derives the field geometry (`charWidth = ceil(log2(alphabetSize + 1))`,
code 0 reserved for the implicit sentinel) and keeps the payload. -/
def mkPackedTrie (b : Blob) : Except TrieError PackedTrie :=
  if b.version = READER_VERSION then
    .ok { offset := b.offset
          inverseTable := SENTINEL :: b.alphabet
          charWidth := bitsNeeded b.alphabet.length
          ptrWidth := b.ptrWidth
          payload := b.payload }
  else
    .error .formatVersionMismatch

/-- Modelled from the spec: the single-record decode (absent from `src/`).
For an in-range index it extracts `last = (word & lastMask) != 0`,
`raw = (word >> pointerShift) & pointerMask` (scaled by `offset`, `0`
meaning no children) and `charCode = (word >> charShift) & charMask`
(mapped through the inverse table); a past-the-end index yields the fixed
sentinel record instead of failing. -/
def PackedTrie.getNodeAtPointer (t : PackedTrie) (ptr : Nat) : PackedTrieNode :=
  match t.payload[ptr]? with
  | none => { char := SENTINEL, last := .bool false, childrenPointer := none }
  | some word =>
      let raw := word / 2 ^ t.pointerShift % (t.pointerMask + 1)
      let code := word / 2 ^ t.charShift % (t.charMask + 1)
      { char := (t.inverseTable[code]?).getD SENTINEL
        last := .bool (decide (word % (t.lastMask + 1) ≠ 0))
        childrenPointer := if raw = 0 then none else some (raw * t.offset) }

/-- Sibling scan with explicit fuel: collect records from `i` on, inclusive
of the first one whose last-sibling flag is set. -/
def childBlockAux (t : PackedTrie) : Nat → Nat → List PackedTrieNode
  | 0, _ => []
  | fuel + 1, i =>
      let n := t.getNodeAtPointer i
      if n.last.truthy then [n] else n :: childBlockAux t fuel (i + 1)

/-- The children block starting at index `i`: the contiguous run of sibling
records up to and including the first with the last flag set.  The scan is
bounded by the payload end, past which every record is the sentinel. -/
def PackedTrie.childBlock (t : PackedTrie) (i : Nat) : List PackedTrieNode :=
  childBlockAux t (t.payload.length - i) i

/-- The children block reached through an optional pointer; a `none` pointer
(stored raw value 0) has no children block. -/
def blockOfPtr (t : PackedTrie) : Option Nat → List PackedTrieNode
  | none => []
  | some i => t.childBlock i

/-- Modelled from the spec: the recursive walk behind `test` (absent from
`src/`).  Characters are consumed left to right against successive children
blocks; a configured wildcard character branches over every non-sentinel
sibling, a literal character must find the sibling carrying it; when the
input is exhausted the walk accepts if `pre` (the `prefix` option) is set,
and otherwise exactly when the current children block contains a
sentinel-character sibling. -/
def testFrom (t : PackedTrie) (wc : Option Char) (pre : Bool) :
    List Char → Option Nat → Bool
  | [], ptr => pre || (blockOfPtr t ptr).any fun n => n.char == SENTINEL
  | c :: cs, ptr =>
      let block := blockOfPtr t ptr
      if wc = some c then
        block.any fun n => n.char != SENTINEL && testFrom t wc pre cs n.childrenPointer
      else
        match block.find? (fun n => n.char == c) with
        | some n => testFrom t wc pre cs n.childrenPointer
        | none => false

/-- The public membership test `test(str, {wildcard, prefix})`, started at the
root children block (index 0). -/
def PackedTrie.test (t : PackedTrie) (w : List Char) (wc : Option Char) (pre : Bool) : Bool :=
  testFrom t wc pre w (some 0)

/-- Modelled from the spec: `hasChar(char)` (absent from `src/`), an O(1)
membership test against the alphabet table only — the table that, per the
data model, maps the characters of the word set plus the reserved sentinel. -/
def PackedTrie.hasChar (t : PackedTrie) (c : Char) : Bool :=
  t.inverseTable.contains c

/-- One pending state of the `search` traversal: the children block to
examine, the characters consumed so far, and how many pattern positions
have been consumed. -/
structure SState where
  pointer : Option Nat
  memo : List Char
  depth : Nat

/-- Branch states for every non-sentinel sibling of a block (wildcard
expansion and prefix continuation share this shape). -/
def expandStates (block : List PackedTrieNode) (memo : List Char) (depth : Nat) : List SState :=
  block.filterMap fun n =>
    if n.char = SENTINEL then none
    else some ⟨n.childrenPointer, memo ++ [n.char], depth + 1⟩

/-- Process one `search` state: while pattern characters remain, branch over
the block (all non-sentinel siblings for a wildcard position, the matching
sibling for a literal); past the pattern end, report the accumulated word
when the block carries the sentinel marker, and, when `pre` is set,
continue into every non-sentinel sibling. -/
def stepState (t : PackedTrie) (pat : List Char) (wc : Option Char) (pre : Bool)
    (s : SState) : Option (List Char) × List SState :=
  let block := blockOfPtr t s.pointer
  match pat[s.depth]? with
  | some c =>
      if wc = some c then
        (none, expandStates block s.memo s.depth)
      else
        match block.find? (fun n => n.char == c) with
        | some n => (none, [⟨n.childrenPointer, s.memo ++ [c], s.depth + 1⟩])
        | none => (none, [])
  | none =>
      (if block.any (fun n => n.char == SENTINEL) then some s.memo else none,
       if pre then expandStates block s.memo s.depth else [])

/-- Modelled from the spec and the test suite: the worklist loop behind
`search` (absent from `src/`).  States are processed from the front of the
queue and newly produced states are appended at the back, so matches are
enumerated level by level, siblings in scan order — the order the design
document's concrete scenario and the test suite fix.  Fuel makes the loop
total; the public wrapper supplies enough for any well-formed trie. -/
def searchLoop (t : PackedTrie) (pat : List Char) (wc : Option Char) (pre : Bool) :
    Nat → List SState → List (List Char)
  | 0, _ => []
  | _, [] => []
  | fuel + 1, s :: queue =>
      let r := stepState t pat wc pre s
      r.1.toList ++ searchLoop t pat wc pre fuel (queue ++ r.2)

/-- Fuel bound for `search`: comfortably exceeds the number of states any
cycle-free payload can generate. -/
def searchFuel (t : PackedTrie) (pat : List Char) : Nat :=
  (t.payload.length + 2) ^ (pat.length + t.payload.length + 2)

/-- The public enumeration `search(str, {wildcard, prefix})` (without
`first`): every match, reconstructed from the characters along its accepted
path, in worklist order. -/
def PackedTrie.search (t : PackedTrie) (pat : List Char) (wc : Option Char) (pre : Bool) :
    List (List Char) :=
  searchLoop t pat wc pre (searchFuel t pat) [⟨some 0, [], 0⟩]

/-- The short-circuiting loop behind `search` with `first:true`: identical
state processing, but the loop returns the moment a state yields a match. -/
def searchFirstLoop (t : PackedTrie) (pat : List Char) (wc : Option Char) (pre : Bool) :
    Nat → List SState → Option (List Char)
  | 0, _ => none
  | _, [] => none
  | fuel + 1, s :: queue =>
      let r := stepState t pat wc pre s
      match r.1 with
      | some w => some w
      | none => searchFirstLoop t pat wc pre fuel (queue ++ r.2)

/-- The public `search(str, {first:true, ...})`: the first match found, or
the distinguished no-match sentinel `none` (the JS `null`). -/
def PackedTrie.searchFirst (t : PackedTrie) (pat : List Char) (wc : Option Char) (pre : Bool) :
    Option (List Char) :=
  searchFirstLoop t pat wc pre (searchFuel t pat) [⟨some 0, [], 0⟩]

/-!
The producer.  The design document treats the builder trie and the encoder
as an external collaborator bound by the binary-format contract; neither is
in `src/`.  To state the claims that quantify over "a trie built from word
list `W`" they are modelled here: a conventional trie accumulated by
insertion (sibling order = first-occurrence order, the documented
invariant) and a serializer laying the children blocks out as fixed-width
records satisfying the contract.
-/

mutual
/-- Modelled from the spec: one node of the builder trie (absent from
`src/`) — a terminal flag ("this prefix is a complete word") and the
outgoing edges in first-insertion order. -/
inductive TNode where
  | mk (terminal : Bool) (edges : TEdges)
/-- Edge list of a builder node, in first-insertion order. -/
inductive TEdges where
  | nil
  | cons (c : Char) (child : TNode) (rest : TEdges)
end

/-- The empty, non-terminal builder node. -/
def TNode.leaf : TNode := .mk false .nil

/-- Number of edges. -/
def edgeLen : TEdges → Nat
  | .nil => 0
  | .cons _ _ rest => edgeLen rest + 1

/-- Whether an edge list is empty. -/
def TEdges.isNil : TEdges → Bool
  | .nil => true
  | .cons _ _ _ => false

/-- Edges as a list of pairs. -/
def edgeList : TEdges → List (Char × TNode)
  | .nil => []
  | .cons c t rest => (c, t) :: edgeList rest

/-- The child reached by character `c`, scanning edges in order. -/
def findChild : TEdges → Char → Option TNode
  | .nil, _ => none
  | .cons c' t rest, c => if c' = c then some t else findChild rest c

/-- Replace the child for `c` if present, otherwise append a new edge at the
end (preserving first-insertion sibling order). -/
def replaceChild : TEdges → Char → TNode → TEdges
  | .nil, c, t => .cons c t .nil
  | .cons c' t' rest, c, t =>
      if c' = c then .cons c' t rest else .cons c' t' (replaceChild rest c t)

/-- Modelled from the spec: insertion of one word into the builder trie
(absent from `src/`): walk the characters, creating missing children at the
end of the sibling list, and mark the final node terminal. -/
def insertW : TNode → List Char → TNode
  | .mk _ es, [] => .mk true es
  | .mk b es, c :: w =>
      .mk b (replaceChild es c (insertW ((findChild es c).getD TNode.leaf) w))

/-- Modelled from the spec: the builder trie of a word list, inserting the
words in list order into the empty trie. -/
def buildT (W : List (List Char)) : TNode := W.foldl insertW TNode.leaf

/-- Structural membership / path test over the builder trie, mirroring the
decoder's walk: with `pre` set, any existing path of the word's length
accepts; otherwise the final node must be terminal.  A wildcard character
branches over every edge, a literal follows the first matching edge. -/
def memTest (wc : Option Char) (pre : Bool) : List Char → TNode → Bool
  | [], .mk b _ => pre || b
  | c :: cs, .mk _ es =>
      if wc = some c then
        (edgeList es).any fun p => memTest wc pre cs p.2
      else
        match findChild es c with
        | some t' => memTest wc pre cs t'
        | none => false

/-- Append a character to the seen list if it is new (first-occurrence order). -/
def addChar (seen : List Char) (c : Char) : List Char :=
  if c ∈ seen then seen else seen ++ [c]

/-- Modelled from the spec: the alphabet listing of a word list — every
distinct character, in first-occurrence order, the sentinel excluded. -/
def alphabetOf (W : List (List Char)) : List Char :=
  W.foldl (fun acc w => w.foldl addChar acc) []

/-- The alphabet code of a character: position in the table, code 0 being the
reserved sentinel. -/
def codeOf (alpha : List Char) (c : Char) : Nat := alpha.indexOf c + 1

/-- Number of records in a node's own children block: one sentinel marker
record when the node is terminal, plus one record per edge. -/
def blockLen : TNode → Nat
  | .mk b es => (cond b 1 0) + edgeLen es

mutual
/-- Number of records the whole subtree of a node contributes to the payload. -/
def subtreeLen : TNode → Nat
  | .mk b es => blockLen (.mk b es) + edgesSubtreeLen es
/-- Records contributed by the subtrees hanging off an edge list. -/
def edgesSubtreeLen : TEdges → Nat
  | .nil => 0
  | .cons _ t rest => subtreeLen t + edgesSubtreeLen rest
end

/-- Pack one record: the last-sibling flag in bit 0, the raw pointer in the
next `pw` bits, the character code above them. -/
def packRecord (pw : Nat) (code ptr : Nat) (last : Bool) : Nat :=
  (cond last 1 0) + 2 * (ptr + 2 ^ pw * code)

/-- The stored child pointer for a child node whose block starts at `cst`:
raw 0 (no children) when the child has no block of its own. -/
def childPtr (child : TNode) (cst : Nat) : Nat :=
  if blockLen child = 0 then 0 else cst

/-- Records of an edge list within one children block; `cst` is the payload
index where the first child's subtree will be laid out. -/
def edgeRecs (alpha : List Char) (pw : Nat) : TEdges → Nat → List Nat
  | .nil, _ => []
  | .cons c t rest, cst =>
      packRecord pw (codeOf alpha c) (childPtr t cst) rest.isNil
        :: edgeRecs alpha pw rest (cst + subtreeLen t)

/-- The sentinel marker record of a terminal node (code 0, raw pointer 0);
it is the last sibling exactly when the node has no edges. -/
def markerRecs (pw : Nat) (b : Bool) (es : TEdges) : List Nat :=
  if b then [packRecord pw 0 0 es.isNil] else []

mutual
/-- Modelled from the spec: serialize a node's subtree starting at payload
index `start` — its own children block (sentinel marker first, then the
edges), followed by the children's subtrees in order. -/
def layoutNode (alpha : List Char) (pw : Nat) : TNode → Nat → List Nat
  | .mk b es, start =>
      markerRecs pw b es
        ++ edgeRecs alpha pw es (start + blockLen (.mk b es))
        ++ childRecs alpha pw es (start + blockLen (.mk b es))
/-- Subtree payloads of the children along an edge list, laid out in order
from index `cst`. -/
def childRecs (alpha : List Char) (pw : Nat) : TEdges → Nat → List Nat
  | .nil, _ => []
  | .cons _ t rest, cst =>
      layoutNode alpha pw t cst ++ childRecs alpha pw rest (cst + subtreeLen t)
end

/-- Modelled from the spec: the encoded blob of a word list — current reader
version, offset 1, the first-occurrence alphabet, a pointer width sized to
address the whole payload, and the laid-out records of the built trie. -/
def encodeWords (W : List (List Char)) : Blob :=
  let root := buildT W
  let alpha := alphabetOf W
  let pw := bitsNeeded (subtreeLen root)
  { version := READER_VERSION
    offset := 1
    alphabet := alpha
    ptrWidth := pw
    payload := layoutNode alpha pw root 0 }

/-- The decoder constructed over the encoding of a word list.  Construction
cannot fail (the encoder stamps the reader's own version); the default is
never reached. -/
def trieOf (W : List (List Char)) : PackedTrie :=
  match mkPackedTrie (encodeWords W) with
  | .ok t => t
  | .error _ =>
      { offset := 1, inverseTable := [SENTINEL], charWidth := 0, ptrWidth := 0, payload := [] }

/-!
Proof-support definitions: the decoded image of an encoded children block,
well-formedness predicates of builder tries, the wildcard pattern relation,
and a depth-first enumeration written from the spec's words for comparison
with the implementation-order enumeration.
-/

/-- The decoded records of the children block of an edge list whose first
child subtree starts at payload index `cst` (what the decoder should see
when reading the corresponding `edgeRecs`). -/
def logicalEdges : TEdges → Nat → List PackedTrieNode
  | .nil, _ => []
  | .cons c child rest, cst =>
      { char := c
        last := .bool rest.isNil
        childrenPointer := if blockLen child = 0 then none else some cst }
        :: logicalEdges rest (cst + subtreeLen child)

/-- The decoded records of a node's children block laid out at index `s`:
the sentinel marker when the node is terminal, then the edges. -/
def logicalBlock (n : TNode) (s : Nat) : List PackedTrieNode :=
  match n with
  | .mk b es =>
      (if b then [{ char := SENTINEL, last := .bool es.isNil, childrenPointer := none }] else [])
        ++ logicalEdges es (s + blockLen (.mk b es))

/-- `P` contains the list `L` as a segment starting at index `s`. -/
def Seg (P : List Nat) (s : Nat) (L : List Nat) : Prop :=
  ∀ k, k < L.length → P[s + k]? = L[k]?

/-- The characters along an edge list. -/
def edgeChars : TEdges → List Char
  | .nil => []
  | .cons c _ rest => c :: edgeChars rest

/-- No duplicates in a character list. -/
def uniq : List Char → Bool
  | [] => true
  | c :: cs => !cs.contains c && uniq cs

mutual
/-- Well-formedness of a builder node: sibling characters are pairwise
distinct at every level (the trie invariant insertion maintains). -/
def okNode : TNode → Bool
  | .mk _ es => uniq (edgeChars es) && okEdges es
/-- Well-formedness of every child along an edge list. -/
def okEdges : TEdges → Bool
  | .nil => true
  | .cons _ child rest => okNode child && okEdges rest
end

mutual
/-- Every edge character of the trie belongs to `alpha`. -/
def nodeCharsOk (alpha : List Char) : TNode → Bool
  | .mk _ es => edgesCharsOk alpha es
/-- Every edge character along an edge list (and below) belongs to `alpha`. -/
def edgesCharsOk (alpha : List Char) : TEdges → Bool
  | .nil => true
  | .cons c child rest =>
      decide (c ∈ alpha) && nodeCharsOk alpha child && edgesCharsOk alpha rest
end

/-- The wildcard pattern relation of the design: the pattern and the word
have equal length and every pattern position holds either the wildcard
character or the word's character. -/
def patMatch (wcc : Char) : List Char → List Char → Bool
  | [], [] => true
  | c :: p, a :: w => (c == wcc || c == a) && patMatch wcc p w
  | _, _ => false

/-- Modelled from the spec: a depth-first enumeration in sibling-scan order,
written from the design document's order wording (newly produced states are
explored before the rest of the worklist); stated only to compare against
the enumeration order the implementation's tests fix. -/
def dfsLoop (t : PackedTrie) (pat : List Char) (wc : Option Char) (pre : Bool) :
    Nat → List SState → List (List Char)
  | 0, _ => []
  | _, [] => []
  | fuel + 1, s :: stack =>
      let r := stepState t pat wc pre s
      r.1.toList ++ dfsLoop t pat wc pre fuel (r.2 ++ stack)

/-- Depth-first counterpart of `search`, from the spec's order wording. -/
def PackedTrie.searchDepthFirst (t : PackedTrie) (pat : List Char) (wc : Option Char)
    (pre : Bool) : List (List Char) :=
  dfsLoop t pat wc pre (searchFuel t pat) [⟨some 0, [], 0⟩]

/-- The nine-word list of the design document's concrete wildcard scenario. -/
def w9 : List (List Char) :=
  [['f','o','o'], ['f','a','r'], ['b','a','r'], ['b','o','o'], ['g','o','o'],
   ['g','a','r'], ['f','o','o','l'], ['b','a','r','e'], ['t','o','o','l']]

/-! Arithmetic facts about the bit layout. -/

theorem bitsNeededAux_spec (fuel : Nat) :
    ∀ n, n ≤ fuel → n < 2 ^ bitsNeededAux fuel n := by
  induction fuel with
  | zero =>
      intro n h
      have : n = 0 := Nat.le_zero.mp h
      subst this
      simp [bitsNeededAux]
  | succ fuel ih =>
      intro n h
      by_cases h0 : n = 0
      · subst h0; simp [bitsNeededAux]
      · rw [bitsNeededAux, if_neg h0]
        have hle : n / 2 ≤ fuel := by omega
        have := ih (n / 2) hle
        rw [pow_succ]
        omega

/-- `bitsNeeded n` bits suffice to store any value up to `n`. -/
theorem lt_two_pow_bitsNeeded (n : Nat) : n < 2 ^ bitsNeeded n :=
  bitsNeededAux_spec n n le_rfl

/-- Decoding a packed record recovers its three fields, provided they fit
the widths the trie was constructed with. -/
theorem decode_packRecord (t : PackedTrie) (i code ptr : Nat) (last : Bool)
    (hp : t.payload[i]? = some (packRecord t.ptrWidth code ptr last))
    (hptr : ptr < 2 ^ t.ptrWidth) (hcode : code < 2 ^ t.charWidth) :
    t.getNodeAtPointer i =
      { char := (t.inverseTable[code]?).getD SENTINEL
        last := .bool last
        childrenPointer := if ptr = 0 then none else some (ptr * t.offset) } := by
  have hP : (0:Nat) < 2 ^ t.ptrWidth := Nat.pos_pow_of_pos _ (by omega)
  have hC : (0:Nat) < 2 ^ t.charWidth := Nat.pos_pow_of_pos _ (by omega)
  have hPm : t.pointerMask + 1 = 2 ^ t.ptrWidth := by
    unfold PackedTrie.pointerMask; omega
  have hCm : t.charMask + 1 = 2 ^ t.charWidth := by
    unfold PackedTrie.charMask; omega
  have hword : packRecord t.ptrWidth code ptr last =
      (cond last 1 0) + 2 * (ptr + 2 ^ t.ptrWidth * code) := rfl
  have hdiv2 : packRecord t.ptrWidth code ptr last / 2 = ptr + 2 ^ t.ptrWidth * code := by
    rw [hword]; cases last <;> simp <;> omega
  have hmod2 : packRecord t.ptrWidth code ptr last % 2 = cond last 1 0 := by
    rw [hword]; cases last <;> simp <;> omega
  have hraw : packRecord t.ptrWidth code ptr last / 2 ^ t.pointerShift % (t.pointerMask + 1)
      = ptr := by
    rw [hPm]
    unfold PackedTrie.pointerShift
    rw [pow_one, hdiv2, Nat.add_mul_mod_self_left, Nat.mod_eq_of_lt hptr]
  have hcode' : packRecord t.ptrWidth code ptr last / 2 ^ t.charShift % (t.charMask + 1)
      = code := by
    rw [hCm]
    unfold PackedTrie.charShift
    rw [pow_add, pow_one, ← Nat.div_div_eq_div_mul, hdiv2,
      Nat.add_mul_div_left _ _ hP, Nat.div_eq_of_lt hptr, Nat.zero_add,
      Nat.mod_eq_of_lt hcode]
  have hlast : decide (packRecord t.ptrWidth code ptr last % (t.lastMask + 1) ≠ 0)
      = last := by
    unfold PackedTrie.lastMask
    rw [show (1:Nat) + 1 = 2 from rfl, hmod2]
    cases last <;> simp
  unfold PackedTrie.getNodeAtPointer
  rw [hp]
  simp only [hraw, hcode', hlast]

/-! Segment lemmas. -/

theorem Seg.left {P : List Nat} {s : Nat} {A B : List Nat} (h : Seg P s (A ++ B)) :
    Seg P s A := by
  intro k hk
  have hh := h k (by simp; omega)
  rw [List.getElem?_append, if_pos hk] at hh
  exact hh

theorem Seg.right {P : List Nat} {s : Nat} {A B : List Nat} (h : Seg P s (A ++ B)) :
    Seg P (s + A.length) B := by
  intro k hk
  have hh := h (A.length + k) (by simp; omega)
  rw [List.getElem?_append, if_neg (by omega)] at hh
  simp only [Nat.add_sub_cancel_left] at hh
  rw [Nat.add_assoc]
  exact hh

theorem Seg.head {P : List Nat} {s : Nat} {a : Nat} {L : List Nat}
    (h : Seg P s (a :: L)) : P[s]? = some a := by
  have := h 0 (by simp)
  simpa using this

theorem Seg.tail {P : List Nat} {s : Nat} {a : Nat} {L : List Nat}
    (h : Seg P s (a :: L)) : Seg P (s + 1) L := by
  have h2 : Seg P s ([a] ++ L) := h
  have h3 := Seg.right h2
  simpa using h3

theorem Seg.refl (P : List Nat) : Seg P 0 P := by
  intro k _
  simp

/-- A nonempty segment lies inside the payload. -/
theorem Seg.bound {P : List Nat} {s : Nat} {L : List Nat} (h : Seg P s L)
    (hne : 0 < L.length) : s + L.length ≤ P.length := by
  have hk : L.length - 1 < L.length := by omega
  have := h (L.length - 1) hk
  rw [List.getElem?_eq_getElem hk] at this
  have : s + (L.length - 1) < P.length := by
    by_contra hge
    rw [List.getElem?_eq_none (by omega)] at this
    exact Option.noConfusion this
  omega

/-! Length bookkeeping for the layout. -/

theorem edgeRecs_length (alpha : List Char) (pw : Nat) :
    ∀ (es : TEdges) (cst : Nat), (edgeRecs alpha pw es cst).length = edgeLen es
  | .nil, _ => rfl
  | .cons c child rest, cst => by
      simp [edgeRecs, edgeLen, edgeRecs_length alpha pw rest]

theorem markerRecs_length (pw : Nat) (b : Bool) (es : TEdges) :
    (markerRecs pw b es).length = cond b 1 0 := by
  cases b <;> simp [markerRecs]

mutual
theorem layoutNode_length (alpha : List Char) (pw : Nat) :
    ∀ (n : TNode) (s : Nat), (layoutNode alpha pw n s).length = subtreeLen n
  | .mk b es, s => by
      rw [layoutNode, subtreeLen]
      simp only [List.length_append, markerRecs_length, edgeRecs_length,
        childRecs_length alpha pw es _]
      cases b <;> simp [blockLen, Nat.add_comm] <;> omega
theorem childRecs_length (alpha : List Char) (pw : Nat) :
    ∀ (es : TEdges) (cst : Nat), (childRecs alpha pw es cst).length = edgesSubtreeLen es
  | .nil, _ => rfl
  | .cons c child rest, cst => by
      rw [childRecs, edgesSubtreeLen]
      simp only [List.length_append, layoutNode_length alpha pw child cst,
        childRecs_length alpha pw rest _]
end

theorem logicalEdges_length : ∀ (es : TEdges) (cst : Nat),
    (logicalEdges es cst).length = edgeLen es
  | .nil, _ => rfl
  | .cons c child rest, cst => by
      simp [logicalEdges, edgeLen, logicalEdges_length rest]

theorem logicalBlock_length (n : TNode) (s : Nat) :
    (logicalBlock n s).length = blockLen n := by
  obtain ⟨b, es⟩ := n
  cases b <;> simp [logicalBlock, logicalEdges_length, blockLen, Nat.add_comm]

theorem blockLen_le_subtreeLen (n : TNode) : blockLen n ≤ subtreeLen n := by
  obtain ⟨b, es⟩ := n
  rw [subtreeLen]
  omega

theorem edgeLen_eq_zero {es : TEdges} (h : edgeLen es = 0) : es = .nil := by
  cases es with
  | nil => rfl
  | cons c child rest => simp [edgeLen] at h

theorem blockLen_eq_zero {n : TNode} (h : blockLen n = 0) : n = TNode.leaf := by
  obtain ⟨b, es⟩ := n
  rw [blockLen] at h
  cases b with
  | false =>
      have : es = TEdges.nil := edgeLen_eq_zero (by omega)
      simp [TNode.leaf, this]
  | true => simp at h

/-! Decoding the records the encoder lays out. -/

theorem getNode_marker {t : PackedTrie} {alpha : List Char}
    (hinv : t.inverseTable = SENTINEL :: alpha) (i : Nat) (last : Bool)
    (hp : t.payload[i]? = some (packRecord t.ptrWidth 0 0 last)) :
    t.getNodeAtPointer i =
      { char := SENTINEL, last := .bool last, childrenPointer := none } := by
  have h := decode_packRecord t i 0 0 last hp
    (Nat.pos_pow_of_pos _ (by omega)) (Nat.pos_pow_of_pos _ (by omega))
  rw [h, hinv]
  simp

theorem getNode_edge {t : PackedTrie} {alpha : List Char}
    (hinv : t.inverseTable = SENTINEL :: alpha) (hoff : t.offset = 1)
    (hcw : alpha.length < 2 ^ t.charWidth)
    (i : Nat) (c : Char) (hc : c ∈ alpha) (ptr : Nat) (hptr : ptr < 2 ^ t.ptrWidth)
    (last : Bool)
    (hp : t.payload[i]? = some (packRecord t.ptrWidth (codeOf alpha c) ptr last)) :
    t.getNodeAtPointer i =
      { char := c, last := .bool last,
        childrenPointer := if ptr = 0 then none else some ptr } := by
  have hcode : codeOf alpha c < 2 ^ t.charWidth := by
    have := List.indexOf_lt_length.mpr hc
    unfold codeOf
    omega
  have h := decode_packRecord t i (codeOf alpha c) ptr last hp hptr hcode
  rw [h, hinv]
  have hchar : ((SENTINEL :: alpha)[codeOf alpha c]?).getD SENTINEL = c := by
    unfold codeOf
    rw [List.getElem?_cons_succ, List.getElem?_indexOf hc]
    rfl
  rw [hchar, hoff]
  simp

/-- Scanning the records of an encoded edge list yields its decoded image. -/
theorem scan_edges {t : PackedTrie} {alpha : List Char}
    (hinv : t.inverseTable = SENTINEL :: alpha) (hoff : t.offset = 1)
    (hcw : alpha.length < 2 ^ t.charWidth) :
    ∀ (es : TEdges) (i cst fuel : Nat), es ≠ .nil →
    Seg t.payload i (edgeRecs alpha t.ptrWidth es cst) →
    edgesCharsOk alpha es = true →
    1 ≤ cst → cst + edgesSubtreeLen es ≤ 2 ^ t.ptrWidth →
    edgeLen es ≤ fuel →
    childBlockAux t fuel i = logicalEdges es cst
  | .nil, _, _, _, hne, _, _, _, _, _ => absurd rfl hne
  | .cons c child rest, i, cst, fuel, _, hseg, hok, hcst, hbound, hfuel => by
      have hok' : (c ∈ alpha ∧ nodeCharsOk alpha child = true) ∧
          edgesCharsOk alpha rest = true := by
        rw [edgesCharsOk] at hok
        simpa [Bool.and_eq_true, decide_eq_true_iff] using hok
      have hhead := Seg.head (by rw [edgeRecs] at hseg; exact hseg)
      have hptr : childPtr child cst < 2 ^ t.ptrWidth := by
        unfold childPtr
        split
        · exact Nat.pos_pow_of_pos _ (by omega)
        · rename_i hbl
          have h1 : 1 ≤ blockLen child := by omega
          have h2 : blockLen child ≤ subtreeLen child := blockLen_le_subtreeLen child
          rw [edgesSubtreeLen] at hbound
          omega
      have hnode := getNode_edge hinv hoff hcw i c hok'.1.1 (childPtr child cst) hptr
        rest.isNil hhead
      have hentry : t.getNodeAtPointer i =
          ({ char := c, last := .bool rest.isNil,
             childrenPointer := if blockLen child = 0 then none else some cst }
            : PackedTrieNode) := by
        rw [hnode]
        unfold childPtr
        by_cases hbl : blockLen child = 0
        · simp [hbl]
        · simp [hbl]
          omega
      obtain ⟨fuel, rfl⟩ : ∃ f, fuel = f + 1 := by
        rw [edgeLen] at hfuel
        exact ⟨fuel - 1, by omega⟩
      rw [childBlockAux, logicalEdges]
      rw [hentry]
      cases hrest : rest with
      | nil =>
          simp [JSVal.truthy, TEdges.isNil, hrest, logicalEdges]
      | cons c2 child2 rest2 =>
          have hnil : TEdges.isNil (.cons c2 child2 rest2) = false := rfl
          simp only [hrest, hnil, JSVal.truthy, if_neg (Bool.false_ne_true)]
          have ih := scan_edges hinv hoff hcw (.cons c2 child2 rest2) (i + 1)
            (cst + subtreeLen child) fuel (by simp)
            (by
              have := Seg.tail (by rw [edgeRecs] at hseg; rw [hrest] at hseg; exact hseg)
              exact this)
            (by rw [← hrest]; exact hok'.2)
            (by omega)
            (by rw [← hrest]; rw [edgesSubtreeLen] at hbound; omega)
            (by rw [← hrest]; rw [edgeLen] at hfuel; omega)
          rw [← hrest]
          rw [← hrest] at ih
          rw [ih]

/-- Reading the children block laid out for a node yields its decoded image. -/
theorem childBlock_eq {t : PackedTrie} {alpha : List Char}
    (hinv : t.inverseTable = SENTINEL :: alpha) (hoff : t.offset = 1)
    (hcw : alpha.length < 2 ^ t.charWidth)
    (n : TNode) (s : Nat)
    (hseg : Seg t.payload s (layoutNode alpha t.ptrWidth n s))
    (hok : nodeCharsOk alpha n = true)
    (hbound : s + subtreeLen n ≤ 2 ^ t.ptrWidth)
    (hpos : 0 < blockLen n) :
    t.childBlock s = logicalBlock n s := by
  obtain ⟨b, es⟩ := n
  have hlen := layoutNode_length alpha t.ptrWidth (.mk b es) s
  have hsub : 0 < subtreeLen (.mk b es) :=
    Nat.lt_of_lt_of_le hpos (blockLen_le_subtreeLen _)
  have hinP : s + subtreeLen (.mk b es) ≤ t.payload.length := by
    have := Seg.bound hseg (by rw [hlen]; exact hsub)
    rwa [hlen] at this
  have hble := blockLen_le_subtreeLen (.mk b es)
  have hsubeq : subtreeLen (.mk b es) = blockLen (.mk b es) + edgesSubtreeLen es := by
    rw [subtreeLen]
  rw [nodeCharsOk] at hok
  unfold PackedTrie.childBlock
  cases b with
  | false =>
      have hbl : blockLen (.mk false es) = edgeLen es := by rw [blockLen]; simp
      have hne : es ≠ .nil := by
        intro h
        subst h
        rw [hbl] at hpos
        simp [edgeLen] at hpos
      have hseg' : Seg t.payload s
          (edgeRecs alpha t.ptrWidth es (s + blockLen (.mk false es))
            ++ childRecs alpha t.ptrWidth es (s + blockLen (.mk false es))) := by
        have := hseg
        rw [layoutNode] at this
        simpa [markerRecs] using this
      have hsegE := Seg.left hseg'
      rw [logicalBlock]
      simp only [List.nil_append, if_neg (Bool.false_ne_true)]
      rw [← scan_edges hinv hoff hcw es s (s + blockLen (.mk false es))
        (t.payload.length - s) hne hsegE hok (by omega) (by omega) (by omega)]
  | true =>
      have hbl : blockLen (.mk true es) = 1 + edgeLen es := by rw [blockLen]; simp
      have hseg' : Seg t.payload s
          (packRecord t.ptrWidth 0 0 es.isNil ::
            (edgeRecs alpha t.ptrWidth es (s + blockLen (.mk true es))
              ++ childRecs alpha t.ptrWidth es (s + blockLen (.mk true es)))) := by
        have := hseg
        rw [layoutNode] at this
        simpa [markerRecs] using this
      have hhead := Seg.head hseg'
      have hmark := getNode_marker hinv s es.isNil hhead
      obtain ⟨f, hf⟩ : ∃ f, t.payload.length - s = f + 1 := ⟨t.payload.length - s - 1, by omega⟩
      rw [hf, childBlockAux, hmark]
      cases hes : es with
      | nil =>
          simp [TEdges.isNil, JSVal.truthy, logicalBlock, logicalEdges, hes]
      | cons c2 child2 rest2 =>
          have hnil : TEdges.isNil es = false := by rw [hes]; rfl
          simp only [hnil, JSVal.truthy, if_neg (Bool.false_ne_true)]
          rw [← hes]
          have hneq : es ≠ .nil := by rw [hes]; simp
          have hsegE : Seg t.payload (s + 1)
              (edgeRecs alpha t.ptrWidth es (s + blockLen (.mk true es))) :=
            Seg.left (Seg.tail hseg')
          have := scan_edges hinv hoff hcw es (s + 1) (s + blockLen (.mk true es)) f hneq
            hsegE hok (by omega)
            (by omega)
            (by
              have h1 : edgeLen es ≤ f := by omega
              exact h1)
          rw [this, logicalBlock]
          simp [hnil]

/-- The walk through a `none` pointer behaves like the walk through the
empty non-terminal node. -/
theorem testFrom_none (t : PackedTrie) (wc : Option Char) (pre : Bool) (w : List Char) :
    testFrom t wc pre w none = memTest wc pre w TNode.leaf := by
  rw [show TNode.leaf = TNode.mk false .nil from rfl]
  cases w with
  | nil => simp [testFrom, memTest, blockOfPtr]
  | cons c cs =>
      rw [testFrom, memTest]
      by_cases h : wc = some c
      · simp [h, blockOfPtr, edgeList]
      · simp [h, blockOfPtr, findChild]

/-- A decoded edge list never shows the sentinel character. -/
theorem logicalEdges_no_sentinel {alpha : List Char} (hsent : SENTINEL ∉ alpha)
    (p : PackedTrieNode → Bool) (hp : ∀ nd, nd.char ≠ SENTINEL → p nd = false) :
    ∀ (es : TEdges) (cst : Nat), edgesCharsOk alpha es = true →
      (logicalEdges es cst).any p = false
  | .nil, _, _ => rfl
  | .cons c child rest, cst, hok => by
      have hok' : (c ∈ alpha ∧ nodeCharsOk alpha child = true) ∧
          edgesCharsOk alpha rest = true := by
        rw [edgesCharsOk] at hok
        simpa [Bool.and_eq_true, decide_eq_true_iff] using hok
      have hc : c ≠ SENTINEL := fun h => hsent (h ▸ hok'.1.1)
      rw [logicalEdges, List.any_cons]
      rw [hp _ hc, logicalEdges_no_sentinel hsent p hp rest _ hok'.2]
      rfl

/-- Literal descent: finding a character in a decoded children block and
walking on agrees with the builder's first-match child lookup. -/
theorem edges_find_bridge {t : PackedTrie} {alpha : List Char}
    (wc : Option Char) (pre : Bool) (cs : List Char) (c : Char)
    (hstep : ∀ (child : TNode) (cst : Nat),
      Seg t.payload cst (layoutNode alpha t.ptrWidth child cst) →
      nodeCharsOk alpha child = true →
      cst + subtreeLen child ≤ 2 ^ t.ptrWidth →
      0 < blockLen child →
      testFrom t wc pre cs (some cst) = memTest wc pre cs child) :
    ∀ (es : TEdges) (cst : Nat),
      Seg t.payload cst (childRecs alpha t.ptrWidth es cst) →
      edgesCharsOk alpha es = true →
      cst + edgesSubtreeLen es ≤ 2 ^ t.ptrWidth →
      (match (logicalEdges es cst).find? (fun nd => nd.char == c) with
       | some nd => testFrom t wc pre cs nd.childrenPointer
       | none => false)
      = (match findChild es c with
         | some child => memTest wc pre cs child
         | none => false)
  | .nil, _, _, _, _ => by simp [logicalEdges, findChild]
  | .cons c2 child rest, cst, hseg, hok, hbound => by
      have hok' : (c2 ∈ alpha ∧ nodeCharsOk alpha child = true) ∧
          edgesCharsOk alpha rest = true := by
        rw [edgesCharsOk] at hok
        simpa [Bool.and_eq_true, decide_eq_true_iff] using hok
      have hsegC : Seg t.payload cst
          (layoutNode alpha t.ptrWidth child cst
            ++ childRecs alpha t.ptrWidth rest (cst + subtreeLen child)) := by
        rw [childRecs] at hseg
        exact hseg
      have hsegChild := Seg.left hsegC
      have hsegRest : Seg t.payload (cst + subtreeLen child)
          (childRecs alpha t.ptrWidth rest (cst + subtreeLen child)) := by
        have := Seg.right hsegC
        rwa [layoutNode_length] at this
      have hsub : cst + subtreeLen child + edgesSubtreeLen rest ≤ 2 ^ t.ptrWidth := by
        rw [edgesSubtreeLen] at hbound
        omega
      rw [logicalEdges, findChild]
      by_cases hc : c2 = c
      · subst hc
        rw [List.find?_cons_of_pos _ (by simp)]
        rw [if_pos rfl]
        by_cases hbl : blockLen child = 0
        · have hleaf := blockLen_eq_zero hbl
          rw [if_pos hbl]
          show testFrom t wc pre cs none = memTest wc pre cs child
          rw [testFrom_none, hleaf]
        · rw [if_neg hbl]
          show testFrom t wc pre cs (some cst) = memTest wc pre cs child
          exact hstep child cst hsegChild hok'.1.2
            (by
              have := blockLen_le_subtreeLen child
              omega)
            (by omega)
      · rw [List.find?_cons_of_neg _ (by simp [hc])]
        rw [if_neg hc]
        exact edges_find_bridge wc pre cs c hstep rest (cst + subtreeLen child)
          hsegRest hok'.2 hsub

/-- Wildcard branching: trying every non-sentinel sibling of a decoded
children block agrees with trying every child of the builder node. -/
theorem edges_any_bridge {t : PackedTrie} {alpha : List Char}
    (hsent : SENTINEL ∉ alpha)
    (wc : Option Char) (pre : Bool) (cs : List Char)
    (hstep : ∀ (child : TNode) (cst : Nat),
      Seg t.payload cst (layoutNode alpha t.ptrWidth child cst) →
      nodeCharsOk alpha child = true →
      cst + subtreeLen child ≤ 2 ^ t.ptrWidth →
      0 < blockLen child →
      testFrom t wc pre cs (some cst) = memTest wc pre cs child) :
    ∀ (es : TEdges) (cst : Nat),
      Seg t.payload cst (childRecs alpha t.ptrWidth es cst) →
      edgesCharsOk alpha es = true →
      cst + edgesSubtreeLen es ≤ 2 ^ t.ptrWidth →
      ((logicalEdges es cst).any fun nd =>
        nd.char != SENTINEL && testFrom t wc pre cs nd.childrenPointer)
      = ((edgeList es).any fun p => memTest wc pre cs p.2)
  | .nil, _, _, _, _ => by simp [logicalEdges, edgeList]
  | .cons c2 child rest, cst, hseg, hok, hbound => by
      have hok' : (c2 ∈ alpha ∧ nodeCharsOk alpha child = true) ∧
          edgesCharsOk alpha rest = true := by
        rw [edgesCharsOk] at hok
        simpa [Bool.and_eq_true, decide_eq_true_iff] using hok
      have hsegC : Seg t.payload cst
          (layoutNode alpha t.ptrWidth child cst
            ++ childRecs alpha t.ptrWidth rest (cst + subtreeLen child)) := by
        rw [childRecs] at hseg
        exact hseg
      have hsegChild := Seg.left hsegC
      have hsegRest : Seg t.payload (cst + subtreeLen child)
          (childRecs alpha t.ptrWidth rest (cst + subtreeLen child)) := by
        have := Seg.right hsegC
        rwa [layoutNode_length] at this
      have hsub : cst + subtreeLen child + edgesSubtreeLen rest ≤ 2 ^ t.ptrWidth := by
        rw [edgesSubtreeLen] at hbound
        omega
      have hc2 : c2 ≠ SENTINEL := fun h => hsent (h ▸ hok'.1.1)
      rw [logicalEdges, edgeList, List.any_cons, List.any_cons]
      have hbne : (c2 != SENTINEL) = true := by simp [bne_iff_ne, hc2]
      have hhead : ((c2 != SENTINEL) &&
          testFrom t wc pre cs (if blockLen child = 0 then none else some cst))
          = memTest wc pre cs child := by
        rw [hbne, Bool.true_and]
        by_cases hbl : blockLen child = 0
        · rw [if_pos hbl, testFrom_none, blockLen_eq_zero hbl]
        · rw [if_neg hbl]
          exact hstep child cst hsegChild hok'.1.2
            (by
              have := blockLen_le_subtreeLen child
              omega)
            (by omega)
      rw [edges_any_bridge hsent wc pre cs hstep rest (cst + subtreeLen child)
        hsegRest hok'.2 hsub]
      congr 1

/-- The decoder walk over the encoded payload agrees with the structural
walk over the builder trie, for any query free of the sentinel character. -/
theorem testFrom_bridge {t : PackedTrie} {alpha : List Char}
    (hinv : t.inverseTable = SENTINEL :: alpha) (hoff : t.offset = 1)
    (hcw : alpha.length < 2 ^ t.charWidth) (hsent : SENTINEL ∉ alpha)
    (wc : Option Char) (pre : Bool) :
    ∀ (w : List Char), SENTINEL ∉ w → ∀ (n : TNode) (s : Nat),
      Seg t.payload s (layoutNode alpha t.ptrWidth n s) →
      nodeCharsOk alpha n = true →
      s + subtreeLen n ≤ 2 ^ t.ptrWidth →
      0 < blockLen n →
      testFrom t wc pre w (some s) = memTest wc pre w n := by
  intro w
  induction w with
  | nil =>
      intro _ n s hseg hok hbound hpos
      obtain ⟨b, es⟩ := n
      have hblk := childBlock_eq hinv hoff hcw (.mk b es) s hseg hok hbound hpos
      have hokE : edgesCharsOk alpha es = true := by rw [nodeCharsOk] at hok; exact hok
      rw [testFrom, memTest]
      show (pre || (t.childBlock s).any (fun nd => nd.char == SENTINEL)) = (pre || b)
      rw [hblk, logicalBlock, List.any_append]
      rw [logicalEdges_no_sentinel hsent _ (fun nd h => by simp [h]) es _ hokE]
      cases b <;> simp
  | cons c cs ih =>
      intro hw n s hseg hok hbound hpos
      have hc : c ≠ SENTINEL := fun h => hw (by rw [h]; exact List.mem_cons_self _ _)
      have hcs : SENTINEL ∉ cs := fun h => hw (List.mem_cons_of_mem _ h)
      obtain ⟨b, es⟩ := n
      have hblk := childBlock_eq hinv hoff hcw (.mk b es) s hseg hok hbound hpos
      have hokE : edgesCharsOk alpha es = true := by rw [nodeCharsOk] at hok; exact hok
      have hstep : ∀ (child : TNode) (cst : Nat),
          Seg t.payload cst (layoutNode alpha t.ptrWidth child cst) →
          nodeCharsOk alpha child = true →
          cst + subtreeLen child ≤ 2 ^ t.ptrWidth →
          0 < blockLen child →
          testFrom t wc pre cs (some cst) = memTest wc pre cs child :=
        fun child cst h1 h2 h3 h4 => ih hcs child cst h1 h2 h3 h4
      have hseg' : Seg t.payload s
          (markerRecs t.ptrWidth b es
            ++ (edgeRecs alpha t.ptrWidth es (s + blockLen (.mk b es))
              ++ childRecs alpha t.ptrWidth es (s + blockLen (.mk b es)))) := by
        have := hseg
        rw [layoutNode] at this
        simpa [List.append_assoc] using this
      have hpose : s + (markerRecs t.ptrWidth b es).length
          + (edgeRecs alpha t.ptrWidth es (s + blockLen (.mk b es))).length
          = s + blockLen (.mk b es) := by
        rw [markerRecs_length, edgeRecs_length, blockLen, Nat.add_assoc]
      have hsegC : Seg t.payload (s + blockLen (.mk b es))
          (childRecs alpha t.ptrWidth es (s + blockLen (.mk b es))) := by
        have h1 := Seg.right (Seg.right hseg')
        rwa [hpose] at h1
      have hboundE : s + blockLen (.mk b es) + edgesSubtreeLen es ≤ 2 ^ t.ptrWidth := by
        rw [subtreeLen] at hbound
        omega
      rw [testFrom, memTest]
      by_cases hwc : wc = some c
      · rw [if_pos hwc, if_pos hwc]
        show (t.childBlock s).any
            (fun nd => nd.char != SENTINEL && testFrom t wc pre cs nd.childrenPointer)
            = (edgeList es).any fun p => memTest wc pre cs p.2
        rw [hblk, logicalBlock, List.any_append]
        have hmark : (if b then
            [({ char := SENTINEL, last := .bool es.isNil, childrenPointer := none }
              : PackedTrieNode)] else []).any
            (fun nd => nd.char != SENTINEL && testFrom t wc pre cs nd.childrenPointer)
            = false := by
          cases b <;> simp
        rw [hmark,
          edges_any_bridge hsent wc pre cs hstep es (s + blockLen (.mk b es)) hsegC hokE
            hboundE]
        simp
      · rw [if_neg hwc, if_neg hwc]
        show (match (t.childBlock s).find? (fun nd => nd.char == c) with
              | some nd => testFrom t wc pre cs nd.childrenPointer
              | none => false)
            = (match findChild es c with
              | some child => memTest wc pre cs child
              | none => false)
        rw [hblk, logicalBlock]
        have hfind : ((if b then
            [({ char := SENTINEL, last := .bool es.isNil, childrenPointer := none }
              : PackedTrieNode)] else [])
            ++ logicalEdges es (s + blockLen (.mk b es))).find? (fun nd => nd.char == c)
            = (logicalEdges es (s + blockLen (.mk b es))).find? (fun nd => nd.char == c) := by
          cases b with
          | false => simp
          | true =>
              rw [if_pos rfl, List.singleton_append,
                List.find?_cons_of_neg _ (by simp [Ne.symm hc])]
        rw [hfind]
        exact edges_find_bridge wc pre cs c hstep es (s + blockLen (.mk b es)) hsegC hokE
          hboundE

/-! The alphabet of a word list. -/

theorem mem_addChar {seen : List Char} {a c : Char} :
    c ∈ addChar seen a ↔ c = a ∨ c ∈ seen := by
  unfold addChar
  split
  · rename_i h
    constructor
    · exact fun hm => Or.inr hm
    · rintro (rfl | hm)
      · exact h
      · exact hm
  · simp [or_comm]

theorem mem_foldl_addChar (w : List Char) :
    ∀ (acc : List Char) (c : Char), c ∈ w.foldl addChar acc ↔ c ∈ w ∨ c ∈ acc := by
  induction w with
  | nil => intro acc c; simp
  | cons a w ih =>
      intro acc c
      rw [List.foldl_cons, ih, mem_addChar]
      simp [or_comm, or_assoc]
      tauto

theorem mem_alphabetOf (W : List (List Char)) (c : Char) :
    c ∈ alphabetOf W ↔ ∃ w ∈ W, c ∈ w := by
  unfold alphabetOf
  suffices h : ∀ (acc : List Char),
      c ∈ W.foldl (fun acc w => w.foldl addChar acc) acc ↔ (∃ w ∈ W, c ∈ w) ∨ c ∈ acc by
    rw [h []]
    simp
  induction W with
  | nil => intro acc; simp
  | cons w W ih =>
      intro acc
      rw [List.foldl_cons, ih, mem_foldl_addChar]
      constructor
      · rintro (⟨u, hu, hc⟩ | (hc | hc))
        · exact Or.inl ⟨u, List.mem_cons_of_mem _ hu, hc⟩
        · exact Or.inl ⟨w, List.mem_cons_self _ _, hc⟩
        · exact Or.inr hc
      · rintro (⟨u, hu, hc⟩ | hc)
        · rcases List.mem_cons.mp hu with rfl | hu2
          · exact Or.inr (Or.inl hc)
          · exact Or.inl ⟨u, hu2, hc⟩
        · exact Or.inr (Or.inr hc)

/-! Edge characters of built tries belong to the alphabet. -/

theorem edgesCharsOk_findChild {alpha : List Char} :
    ∀ {es : TEdges} {a : Char} {t0 : TNode}, edgesCharsOk alpha es = true →
      findChild es a = some t0 → nodeCharsOk alpha t0 = true
  | .nil, a, t0, _, h => by simp [findChild] at h
  | .cons c child rest, a, t0, hok, h => by
      have hok' : (c ∈ alpha ∧ nodeCharsOk alpha child = true) ∧
          edgesCharsOk alpha rest = true := by
        rw [edgesCharsOk] at hok
        simpa [Bool.and_eq_true, decide_eq_true_iff] using hok
      rw [findChild] at h
      by_cases hc : c = a
      · rw [if_pos hc] at h
        cases h
        exact hok'.1.2
      · rw [if_neg hc] at h
        exact edgesCharsOk_findChild hok'.2 h

theorem edgesCharsOk_replaceChild {alpha : List Char} :
    ∀ {es : TEdges} {a : Char} {t0 : TNode}, edgesCharsOk alpha es = true →
      a ∈ alpha → nodeCharsOk alpha t0 = true →
      edgesCharsOk alpha (replaceChild es a t0) = true
  | .nil, a, t0, _, ha, ht => by
      simp [replaceChild, edgesCharsOk, ha, ht]
  | .cons c child rest, a, t0, hok, ha, ht => by
      have hok' : (c ∈ alpha ∧ nodeCharsOk alpha child = true) ∧
          edgesCharsOk alpha rest = true := by
        rw [edgesCharsOk] at hok
        simpa [Bool.and_eq_true, decide_eq_true_iff] using hok
      rw [replaceChild]
      by_cases hc : c = a
      · rw [if_pos hc]
        simp [edgesCharsOk, hok'.1.1, ht, hok'.2]
      · rw [if_neg hc]
        simp [edgesCharsOk, hok'.1.1, hok'.1.2,
          edgesCharsOk_replaceChild hok'.2 ha ht]

theorem nodeCharsOk_insertW {alpha : List Char} :
    ∀ (v : List Char) (n : TNode), nodeCharsOk alpha n = true →
      (∀ c ∈ v, c ∈ alpha) → nodeCharsOk alpha (insertW n v) = true := by
  intro v
  induction v with
  | nil =>
      intro n hok _
      obtain ⟨b, es⟩ := n
      rw [insertW]
      rw [nodeCharsOk] at hok ⊢
      exact hok
  | cons a v ih =>
      intro n hok hv
      obtain ⟨b, es⟩ := n
      rw [insertW]
      rw [nodeCharsOk] at hok ⊢
      have ha : a ∈ alpha := hv a (List.mem_cons_self _ _)
      have hsub : nodeCharsOk alpha ((findChild es a).getD TNode.leaf) = true := by
        cases hfc : findChild es a with
        | none => rfl
        | some t0 => simpa using edgesCharsOk_findChild hok hfc
      exact edgesCharsOk_replaceChild hok ha
        (ih _ hsub (fun c hc => hv c (List.mem_cons_of_mem _ hc)))

theorem nodeCharsOk_buildT (W : List (List Char)) :
    nodeCharsOk (alphabetOf W) (buildT W) = true := by
  unfold buildT
  suffices h : ∀ (acc : TNode), nodeCharsOk (alphabetOf W) acc = true →
      (∀ v ∈ W, ∀ c ∈ v, c ∈ alphabetOf W) →
      nodeCharsOk (alphabetOf W) (W.foldl insertW acc) = true by
    refine h TNode.leaf rfl ?_
    intro v hv c hc
    exact (mem_alphabetOf W c).mpr ⟨v, hv, hc⟩
  generalize alphabetOf W = alpha
  induction W with
  | nil => intro acc hacc _; simpa using hacc
  | cons v W ih =>
      intro acc hacc hall
      rw [List.foldl_cons]
      exact ih _ (nodeCharsOk_insertW v acc hacc (hall v (List.mem_cons_self _ _)))
        (fun u hu c hc => hall u (List.mem_cons_of_mem _ hu) c hc)

/-! The decoder built over an encoded word list. -/

theorem trieOf_eq (W : List (List Char)) :
    trieOf W =
      { offset := 1
        inverseTable := SENTINEL :: alphabetOf W
        charWidth := bitsNeeded (alphabetOf W).length
        ptrWidth := bitsNeeded (subtreeLen (buildT W))
        payload := layoutNode (alphabetOf W) (bitsNeeded (subtreeLen (buildT W)))
          (buildT W) 0 } := by
  rfl

theorem childBlock_of_empty {t : PackedTrie} (h : t.payload = []) (i : Nat) :
    t.childBlock i = [] := by
  unfold PackedTrie.childBlock
  rw [h, List.length_nil, Nat.zero_sub]
  rfl

/-- The walk through a pointer whose block is empty behaves like the walk
through the empty non-terminal node. -/
theorem testFrom_block_nil {t : PackedTrie} {p : Option Nat}
    (hb : blockOfPtr t p = []) (wc : Option Char) (pre : Bool) (w : List Char) :
    testFrom t wc pre w p = memTest wc pre w TNode.leaf := by
  rw [show TNode.leaf = TNode.mk false .nil from rfl]
  cases w with
  | nil =>
      rw [testFrom, memTest, hb]
      simp
  | cons c cs =>
      rw [testFrom, memTest, hb]
      by_cases h : wc = some c
      · simp [h, edgeList]
      · simp [h, findChild]

/-- Querying the decoder built over `W` is querying the builder trie of `W`,
for queries free of the sentinel character. -/
theorem test_eq_memTest (W : List (List Char)) (hW : ∀ w ∈ W, SENTINEL ∉ w)
    (v : List Char) (hv : SENTINEL ∉ v) (wc : Option Char) (pre : Bool) :
    (trieOf W).test v wc pre = memTest wc pre v (buildT W) := by
  have hsent : SENTINEL ∉ alphabetOf W := by
    rw [mem_alphabetOf]
    rintro ⟨w, hw, hc⟩
    exact hW w hw hc
  rw [PackedTrie.test]
  by_cases hbl : blockLen (buildT W) = 0
  · have hleaf := blockLen_eq_zero hbl
    have hpay : (trieOf W).payload = [] := by
      rw [trieOf_eq]
      show layoutNode (alphabetOf W) (bitsNeeded (subtreeLen (buildT W))) (buildT W) 0 = []
      rw [hleaf]
      rfl
    have hbp : blockOfPtr (trieOf W) (some 0) = [] := by
      simp [blockOfPtr, childBlock_of_empty hpay]
    rw [testFrom_block_nil hbp wc pre v, hleaf]
  · have h0 : (0:Nat) < blockLen (buildT W) := by omega
    refine testFrom_bridge ?_ ?_ ?_ hsent wc pre v hv (buildT W) 0 ?_
      (nodeCharsOk_buildT W) ?_ h0
    · rw [trieOf_eq]
    · rw [trieOf_eq]
    · rw [trieOf_eq]
      show (alphabetOf W).length < 2 ^ bitsNeeded (alphabetOf W).length
      exact lt_two_pow_bitsNeeded _
    · rw [trieOf_eq]
      exact Seg.refl _
    · rw [trieOf_eq]
      show 0 + subtreeLen (buildT W) ≤ 2 ^ bitsNeeded (subtreeLen (buildT W))
      rw [Nat.zero_add]
      exact Nat.le_of_lt (lt_two_pow_bitsNeeded _)

/-! Membership in the builder trie. -/

theorem memTest_leaf (pre : Bool) (w : List Char) :
    memTest none pre w TNode.leaf = (pre && w.isEmpty) := by
  rw [show TNode.leaf = TNode.mk false .nil from rfl]
  cases w with
  | nil => rw [memTest]; cases pre <;> simp
  | cons c cs =>
      rw [memTest]
      simp [findChild]

theorem findChild_replaceChild :
    ∀ (es : TEdges) (a : Char) (t0 : TNode) (c : Char),
      findChild (replaceChild es a t0) c = if a = c then some t0 else findChild es c
  | .nil, a, t0, c => by
      simp [replaceChild, findChild]
  | .cons c2 t2 rest, a, t0, c => by
      rw [replaceChild]
      by_cases h2a : c2 = a
      · subst h2a
        rw [if_pos rfl, findChild]
        by_cases h2c : c2 = c
        · rw [if_pos h2c, if_pos h2c]
        · rw [if_neg h2c, if_neg h2c, findChild, if_neg h2c]
      · rw [if_neg h2a, findChild, findChild]
        by_cases h2c : c2 = c
        · subst h2c
          rw [if_pos rfl, if_pos rfl, if_neg (fun hac => h2a hac.symm)]
        · rw [if_neg h2c, if_neg h2c, findChild_replaceChild rest a t0 c]

theorem memTest_insertW (pre : Bool) :
    ∀ (v w : List Char) (n : TNode),
      memTest none pre w (insertW n v)
        = ((if pre then w.isPrefixOf v else w == v) || memTest none pre w n) := by
  intro v
  induction v with
  | nil =>
      intro w n
      obtain ⟨b, es⟩ := n
      rw [insertW]
      cases w with
      | nil =>
          rw [memTest, memTest]
          cases pre <;> simp
      | cons c cs =>
          rw [memTest, memTest]
          cases pre <;> simp
  | cons a v ih =>
      intro w n
      obtain ⟨b, es⟩ := n
      rw [insertW]
      cases w with
      | nil =>
          rw [memTest, memTest]
          cases pre <;> simp
      | cons c cs =>
          rw [memTest, memTest]
          simp only [show ((none : Option Char) = some c) = False by simp, if_false]
          rw [findChild_replaceChild]
          by_cases hac : a = c
          · subst hac
            rw [if_pos rfl]
            show memTest none pre cs (insertW ((findChild es a).getD TNode.leaf) v)
              = ((if pre then (a :: cs).isPrefixOf (a :: v) else (a :: cs) == (a :: v))
                || match findChild es a with
                   | some t' => memTest none pre cs t'
                   | none => false)
            rw [ih cs ((findChild es a).getD TNode.leaf)]
            cases hfc : findChild es a with
            | some t0 =>
                cases pre <;> simp [List.isPrefixOf_cons₂]
            | none =>
                rw [show (none : Option TNode).getD TNode.leaf = TNode.leaf from rfl,
                  memTest_leaf]
                cases pre with
                | false => simp
                | true => cases cs <;> simp [List.isPrefixOf_cons₂]
          · rw [if_neg hac]
            have hmz : (if pre then (c :: cs).isPrefixOf (a :: v) else (c :: cs) == (a :: v))
                = false := by
              cases pre <;> simp [List.isPrefixOf_cons₂, Ne.symm hac]
            rw [hmz]
            simp

theorem memTest_buildT (pre : Bool) (w : List Char) (W : List (List Char)) :
    memTest none pre w (buildT W)
      = (W.any (fun v => if pre then w.isPrefixOf v else w == v) || (pre && w.isEmpty)) := by
  unfold buildT
  rw [← memTest_leaf pre w]
  suffices h : ∀ (acc : TNode), memTest none pre w (W.foldl insertW acc)
      = (W.any (fun v => if pre then w.isPrefixOf v else w == v)
        || memTest none pre w acc) from h TNode.leaf
  induction W with
  | nil => intro acc; simp
  | cons v W ih =>
      intro acc
      rw [List.foldl_cons, ih, memTest_insertW]
      rw [List.any_cons]
      cases hv : (if pre then w.isPrefixOf v else w == v) <;>
        cases hw : W.any (fun v => if pre then w.isPrefixOf v else w == v) <;> simp [hv, hw]

theorem memTest_buildT_exact (w : List Char) (W : List (List Char)) :
    memTest none false w (buildT W) = true ↔ w ∈ W := by
  rw [memTest_buildT]
  simp [List.any_eq_true]

theorem memTest_buildT_pre (w : List Char) (W : List (List Char)) :
    memTest none true w (buildT W) = true ↔ (w = [] ∨ ∃ v ∈ W, w <+: v) := by
  rw [memTest_buildT]
  constructor
  · intro h
    rcases (Bool.or_eq_true _ _).mp h with h1 | h2
    · obtain ⟨v, hv, hp⟩ := List.any_eq_true.mp h1
      rw [if_pos rfl] at hp
      exact Or.inr ⟨v, hv, List.isPrefixOf_iff_prefix.mp hp⟩
    · have h3 := (Bool.and_eq_true _ _).mp h2
      exact Or.inl (List.isEmpty_iff.mp h3.2)
  · intro h
    apply (Bool.or_eq_true _ _).mpr
    rcases h with rfl | ⟨v, hv, hp⟩
    · exact Or.inr ((Bool.and_eq_true _ _).mpr ⟨rfl, List.isEmpty_iff.mpr rfl⟩)
    · refine Or.inl (List.any_eq_true.mpr ⟨v, hv, ?_⟩)
      rw [if_pos rfl]
      exact List.isPrefixOf_iff_prefix.mpr hp

/-! Distinct sibling characters: the invariant insertion maintains. -/

theorem okNode_eq (b : Bool) (es : TEdges) :
    okNode (.mk b es) = (uniq (edgeChars es) && okEdges es) := by
  rw [okNode]

theorem mem_edgeList_chars :
    ∀ {es : TEdges} {c : Char} {t0 : TNode}, (c, t0) ∈ edgeList es → c ∈ edgeChars es
  | .nil, c, t0, h => by simp [edgeList] at h
  | .cons c2 t2 rest, c, t0, h => by
      rw [edgeList] at h
      rw [edgeChars]
      rcases List.mem_cons.mp h with h1 | h2
      · injection h1 with h1a h1b
        rw [h1a]
        exact List.mem_cons_self _ _
      · exact List.mem_cons_of_mem _ (mem_edgeList_chars h2)

theorem findChild_mem :
    ∀ {es : TEdges} {c : Char} {t0 : TNode}, findChild es c = some t0 →
      (c, t0) ∈ edgeList es
  | .nil, c, t0, h => by simp [findChild] at h
  | .cons c2 t2 rest, c, t0, h => by
      rw [findChild] at h
      rw [edgeList]
      by_cases h2 : c2 = c
      · rw [if_pos h2] at h
        cases h
        subst h2
        exact List.mem_cons_self _ _
      · rw [if_neg h2] at h
        exact List.mem_cons_of_mem _ (findChild_mem h)

theorem mem_findChild_of_uniq :
    ∀ {es : TEdges} {c : Char} {t0 : TNode}, uniq (edgeChars es) = true →
      (c, t0) ∈ edgeList es → findChild es c = some t0
  | .nil, c, t0, _, h => by simp [edgeList] at h
  | .cons c2 t2 rest, c, t0, hu, h => by
      rw [edgeChars, uniq, Bool.and_eq_true, Bool.not_eq_true'] at hu
      rw [edgeList] at h
      rw [findChild]
      rcases List.mem_cons.mp h with h1 | h2
      · injection h1 with h1a h1b
        rw [h1a, h1b, if_pos rfl]
      · by_cases h2c : c2 = c
        · exfalso
          have hcin : c ∈ edgeChars rest := mem_edgeList_chars h2
          rw [← h2c] at hcin
          have : (edgeChars rest).contains c2 = true := by
            rw [List.contains_eq_any_beq]
            exact List.any_eq_true.mpr ⟨c2, hcin, by simp⟩
          rw [hu.1] at this
          exact Bool.false_ne_true this
        · rw [if_neg h2c]
          exact mem_findChild_of_uniq hu.2 h2

theorem okEdges_mem :
    ∀ {es : TEdges} {c : Char} {t0 : TNode}, okEdges es = true →
      (c, t0) ∈ edgeList es → okNode t0 = true
  | .nil, c, t0, _, h => by simp [edgeList] at h
  | .cons c2 t2 rest, c, t0, hok, h => by
      rw [okEdges, Bool.and_eq_true] at hok
      rw [edgeList] at h
      rcases List.mem_cons.mp h with h1 | h2
      · injection h1 with h1a h1b
        rw [h1b]
        exact hok.1
      · exact okEdges_mem hok.2 h2

theorem findChild_okNode {es : TEdges} {c : Char} {t0 : TNode}
    (hok : okEdges es = true) (h : findChild es c = some t0) : okNode t0 = true :=
  okEdges_mem hok (findChild_mem h)

theorem edgeChars_replaceChild :
    ∀ (es : TEdges) (a : Char) (t0 : TNode),
      edgeChars (replaceChild es a t0)
        = if a ∈ edgeChars es then edgeChars es else edgeChars es ++ [a]
  | .nil, a, t0 => by simp [replaceChild, edgeChars]
  | .cons c2 t2 rest, a, t0 => by
      rw [replaceChild]
      by_cases h2 : c2 = a
      · subst h2
        rw [if_pos rfl, edgeChars, edgeChars, if_pos (by simp)]
      · rw [if_neg h2, edgeChars, edgeChars, edgeChars_replaceChild rest a t0]
        by_cases hmem : a ∈ edgeChars rest
        · rw [if_pos hmem, if_pos (by simp [hmem])]
        · have hac2 : ¬a = c2 := fun h => h2 h.symm
          rw [if_neg hmem, if_neg (by simp [hmem, hac2])]
          rfl

theorem uniq_append_one :
    ∀ (l : List Char) (a : Char), a ∉ l → uniq l = true → uniq (l ++ [a]) = true
  | [], a, _, _ => by simp [uniq]
  | c :: l, a, ha, hu => by
      rw [uniq, Bool.and_eq_true, Bool.not_eq_true'] at hu
      obtain ⟨hu1, hu2⟩ := hu
      rw [List.cons_append, uniq, Bool.and_eq_true, Bool.not_eq_true']
      refine ⟨?_, uniq_append_one l a (fun h => ha (List.mem_cons_of_mem _ h)) hu2⟩
      rw [List.contains_eq_any_beq, List.any_append]
      rw [List.contains_eq_any_beq] at hu1
      rw [hu1]
      have hca : c ≠ a := fun h => ha (h ▸ List.mem_cons_self _ _)
      simp [hca]

theorem okEdges_replaceChild :
    ∀ {es : TEdges} {a : Char} {t0 : TNode}, okEdges es = true → okNode t0 = true →
      okEdges (replaceChild es a t0) = true
  | .nil, a, t0, _, ht => by simp [replaceChild, okEdges, ht]
  | .cons c2 t2 rest, a, t0, hok, ht => by
      rw [okEdges, Bool.and_eq_true] at hok
      rw [replaceChild]
      by_cases h2 : c2 = a
      · rw [if_pos h2, okEdges, Bool.and_eq_true]
        exact ⟨ht, hok.2⟩
      · rw [if_neg h2, okEdges, Bool.and_eq_true]
        exact ⟨hok.1, okEdges_replaceChild hok.2 ht⟩

theorem uniq_replaceChild {es : TEdges} {a : Char} {t0 : TNode}
    (hu : uniq (edgeChars es) = true) :
    uniq (edgeChars (replaceChild es a t0)) = true := by
  rw [edgeChars_replaceChild]
  by_cases hmem : a ∈ edgeChars es
  · rw [if_pos hmem]
    exact hu
  · rw [if_neg hmem]
    exact uniq_append_one _ a hmem hu

theorem okNode_insertW :
    ∀ (v : List Char) (n : TNode), okNode n = true → okNode (insertW n v) = true := by
  intro v
  induction v with
  | nil =>
      intro n hok
      obtain ⟨b, es⟩ := n
      rw [insertW]
      rw [okNode_eq] at hok ⊢
      exact hok
  | cons a v ih =>
      intro n hok
      obtain ⟨b, es⟩ := n
      rw [insertW]
      rw [okNode_eq, Bool.and_eq_true] at hok
      rw [okNode_eq, Bool.and_eq_true]
      have hsub : okNode ((findChild es a).getD TNode.leaf) = true := by
        cases hfc : findChild es a with
        | none => rfl
        | some t0 => simpa using findChild_okNode hok.2 hfc
      exact ⟨uniq_replaceChild hok.1, okEdges_replaceChild hok.2 (ih _ hsub)⟩

theorem okNode_buildT (W : List (List Char)) : okNode (buildT W) = true := by
  unfold buildT
  suffices h : ∀ (acc : TNode), okNode acc = true →
      okNode (W.foldl insertW acc) = true from h TNode.leaf rfl
  induction W with
  | nil => intro acc hacc; simpa using hacc
  | cons v W ih =>
      intro acc hacc
      rw [List.foldl_cons]
      exact ih _ (okNode_insertW v acc hacc)

/-- Wildcard matching over a well-formed builder trie is the existence of a
same-length word of the trie agreeing with the pattern at every
non-wildcard position. -/
theorem memTest_wildcard (wcc : Char) (pre : Bool) :
    ∀ (p : List Char) (n : TNode), okNode n = true →
      (memTest (some wcc) pre p n = true ↔
        ∃ w, patMatch wcc p w = true ∧ memTest none pre w n = true) := by
  intro p
  induction p with
  | nil =>
      intro n _
      obtain ⟨b, es⟩ := n
      constructor
      · intro h
        exact ⟨[], rfl, h⟩
      · rintro ⟨w, hm, hw⟩
        cases w with
        | nil => exact hw
        | cons a w => simp [patMatch] at hm
  | cons c p ih =>
      intro n hok
      obtain ⟨b, es⟩ := n
      rw [okNode_eq, Bool.and_eq_true] at hok
      by_cases hwc : wcc = c
      · subst hwc
        rw [memTest, if_pos rfl]
        constructor
        · intro h
          obtain ⟨⟨cq, tq⟩, hmem, hrec⟩ := List.any_eq_true.mp h
          have hokq : okNode tq = true := okEdges_mem hok.2 hmem
          obtain ⟨w', hm', hw'⟩ := (ih tq hokq).mp hrec
          refine ⟨cq :: w', ?_, ?_⟩
          · rw [patMatch, Bool.and_eq_true]
            exact ⟨by simp, hm'⟩
          · rw [memTest, if_neg (by simp)]
            rw [mem_findChild_of_uniq hok.1 hmem]
            exact hw'
        · rintro ⟨w, hm, hw⟩
          cases w with
          | nil => simp [patMatch] at hm
          | cons a w' =>
              rw [patMatch, Bool.and_eq_true] at hm
              rw [memTest, if_neg (by simp)] at hw
              cases hfc : findChild es a with
              | none => rw [hfc] at hw; exact absurd hw (by simp)
              | some t' =>
                  rw [hfc] at hw
                  have hmem := findChild_mem hfc
                  have hokt : okNode t' = true := okEdges_mem hok.2 hmem
                  refine List.any_eq_true.mpr ⟨(a, t'), hmem, ?_⟩
                  exact (ih t' hokt).mpr ⟨w', hm.2, hw⟩
      · rw [memTest, if_neg (by simp [hwc])]
        cases hfc : findChild es c with
        | none =>
            constructor
            · intro h
              exact absurd h (by simp)
            · rintro ⟨w, hm, hw⟩
              cases w with
              | nil => simp [patMatch] at hm
              | cons a w' =>
                  rw [patMatch, Bool.and_eq_true] at hm
                  have hca : c = a := by
                    rcases Bool.or_eq_true_iff.mp hm.1 with h1 | h1
                    · exact absurd (show wcc = c from (by simpa using h1 : c = wcc).symm) hwc
                    · simpa using h1
                  rw [memTest, if_neg (by simp), ← hca, hfc] at hw
                  exact absurd hw (by simp)
        | some t' =>
            have hokt : okNode t' = true := findChild_okNode hok.2 hfc
            rw [ih t' hokt]
            constructor
            · rintro ⟨w', hm', hw'⟩
              refine ⟨c :: w', ?_, ?_⟩
              · rw [patMatch, Bool.and_eq_true]
                exact ⟨by simp, hm'⟩
              · rw [memTest, if_neg (by simp), hfc]
                exact hw'
            · rintro ⟨w, hm, hw⟩
              cases w with
              | nil => simp [patMatch] at hm
              | cons a w' =>
                  rw [patMatch, Bool.and_eq_true] at hm
                  have hca : c = a := by
                    rcases Bool.or_eq_true_iff.mp hm.1 with h1 | h1
                    · exact absurd (show wcc = c from (by simpa using h1 : c = wcc).symm) hwc
                    · simpa using h1
                  rw [memTest, if_neg (by simp), ← hca, hfc] at hw
                  exact ⟨w', hm.2, hw⟩

/-- The short-circuiting loop returns exactly the first element the full
enumeration loop would produce, for every fuel and worklist. -/
theorem searchFirstLoop_head (t : PackedTrie) (pat : List Char) (wc : Option Char)
    (pre : Bool) :
    ∀ (fuel : Nat) (queue : List SState),
      searchFirstLoop t pat wc pre fuel queue
        = (searchLoop t pat wc pre fuel queue).head? := by
  intro fuel
  induction fuel with
  | zero => intro queue; cases queue <;> rfl
  | succ fuel ih =>
      intro queue
      cases queue with
      | nil => rfl
      | cons s q =>
          rw [searchFirstLoop, searchLoop]
          cases h : (stepState t pat wc pre s).1 with
          | some w => simp [h]
          | none => simp [h, ih]

/-- Extending a query can only shrink the set of accepting walks: if the
prefix-mode walk rejects `s`, it rejects `s ++ [c]`. -/
theorem testFrom_pre_mono (t : PackedTrie) (wc : Option Char) :
    ∀ (s : List Char) (c : Char) (ptr : Option Nat),
      testFrom t wc true (s ++ [c]) ptr = true → testFrom t wc true s ptr = true := by
  intro s
  induction s with
  | nil =>
      intro c ptr _
      rw [testFrom]
      rfl
  | cons a s ih =>
      intro c ptr h
      rw [List.cons_append] at h
      rw [testFrom] at h ⊢
      by_cases hwc : wc = some a
      · rw [if_pos hwc] at h ⊢
        obtain ⟨nd, hmem, hnd⟩ := List.any_eq_true.mp h
        rw [Bool.and_eq_true] at hnd
        refine List.any_eq_true.mpr ⟨nd, hmem, ?_⟩
        rw [Bool.and_eq_true]
        exact ⟨hnd.1, ih c _ hnd.2⟩
      · rw [if_neg hwc] at h ⊢
        cases hfc : (blockOfPtr t ptr).find? (fun nd => nd.char == a) with
        | none =>
            rw [hfc] at h
            simp at h
        | some nd =>
            rw [hfc] at h
            exact ih c _ h

/-!
The claims.
-/

/-- C1: for any finite word list `W` (over real characters, i.e. free of the
reserved sentinel) encoded into a packed trie, every `w ∈ W` satisfies
`test(w) = true`, and for every `w ∈ W` whose character-reversal is not
itself in `W`, `test` of that reversed string returns `false`. -/
theorem claim_c1_roundtrip (W : List (List Char)) (hW : ∀ w ∈ W, SENTINEL ∉ w)
    (w : List Char) (hw : w ∈ W) :
    (trieOf W).test w none false = true ∧
      (w.reverse ∉ W → (trieOf W).test w.reverse none false = false) := by
  have hsw : SENTINEL ∉ w := hW w hw
  constructor
  · rw [test_eq_memTest W hW w hsw none false]
    exact (memTest_buildT_exact w W).mpr hw
  · intro hrev
    rw [test_eq_memTest W hW w.reverse (by simpa using hsw) none false]
    cases hmb : memTest none false w.reverse (buildT W) with
    | false => rfl
    | true => exact absurd ((memTest_buildT_exact _ W).mp hmb) hrev

theorem claim_c1_roundtrip_witness :
    (trieOf [['a','b']]).test ['a','b'] none false = true ∧
      (trieOf [['a','b']]).test ['b','a'] none false = false := by
  have h := claim_c1_roundtrip [['a','b']] (by decide) ['a','b'] (by decide)
  exact ⟨h.1, h.2 (by decide)⟩

/-- C2: construction succeeds exactly when the blob's version stamp equals
the reader's compiled-in version; on mismatch it fails with
`formatVersionMismatch` (the only error the decoder can raise) and no trie
value is produced, so no query is possible. -/
theorem claim_c2_version (b : Blob) :
    ((∃ tr, mkPackedTrie b = .ok tr) ↔ b.version = READER_VERSION) ∧
      (b.version ≠ READER_VERSION →
        mkPackedTrie b = .error .formatVersionMismatch) := by
  by_cases h : b.version = READER_VERSION
  · constructor
    · exact ⟨fun _ => h, fun _ => ⟨_, by unfold mkPackedTrie; rw [if_pos h]⟩⟩
    · intro hn
      exact absurd h hn
  · constructor
    · constructor
      · rintro ⟨tr, htr⟩
        unfold mkPackedTrie at htr
        rw [if_neg h] at htr
        exact absurd htr (by simp)
      · intro hv
        exact absurd hv h
    · intro _
      unfold mkPackedTrie
      rw [if_neg h]

theorem claim_c2_version_witness :
    mkPackedTrie { version := 1, offset := 1, alphabet := [], ptrWidth := 0, payload := [] }
      = .error .formatVersionMismatch :=
  (claim_c2_version _).2 (by decide)

/-- C3: for every index past the end of the payload, the single-record
decode `getNodeAtPointer` never fails and returns exactly the sentinel
record: sentinel character, `last = false`, `childrenPointer = null`. -/
theorem claim_c3_out_of_range (t : PackedTrie) (i : Nat) (h : t.payload.length ≤ i) :
    t.getNodeAtPointer i =
      { char := SENTINEL, last := .bool false, childrenPointer := none } := by
  unfold PackedTrie.getNodeAtPointer
  rw [List.getElem?_eq_none h]

theorem claim_c3_out_of_range_witness :
    (trieOf [['a']]).getNodeAtPointer 100 =
      { char := SENTINEL, last := .bool false, childrenPointer := none } :=
  claim_c3_out_of_range _ 100 (by decide)

/-- C4: over the trie built from `W` (words over real characters, pattern
likewise sentinel-free), `test(p, {wildcard := '*'})` is true exactly when
some same-length word `w` agrees with `p` at every non-`'*'` position,
where `w` ranges over `W` itself when `prefix` is off, and over the
prefix-eligible partial words (prefixes of words of `W`, including the
empty one) when `prefix` is on. -/
theorem claim_c4_wildcard (W : List (List Char)) (p : List Char) (pre : Bool)
    (hW : ∀ w ∈ W, SENTINEL ∉ w) (hp : SENTINEL ∉ p) :
    ((trieOf W).test p (some '*') pre = true ↔
      ∃ w, patMatch '*' p w = true ∧
        (if pre then (w = [] ∨ ∃ v ∈ W, w <+: v) else w ∈ W)) := by
  rw [test_eq_memTest W hW p hp (some '*') pre]
  rw [memTest_wildcard '*' pre p (buildT W) (okNode_buildT W)]
  constructor
  · rintro ⟨w, hm, hw⟩
    refine ⟨w, hm, ?_⟩
    cases pre with
    | false => simpa using (memTest_buildT_exact w W).mp hw
    | true => simpa using (memTest_buildT_pre w W).mp hw
  · rintro ⟨w, hm, hw⟩
    refine ⟨w, hm, ?_⟩
    cases pre with
    | false => exact (memTest_buildT_exact w W).mpr (by simpa using hw)
    | true => exact (memTest_buildT_pre w W).mpr (by simpa using hw)

theorem claim_c4_wildcard_witness :
    (trieOf [['a','b']]).test ['*','b'] (some '*') false = true :=
  (claim_c4_wildcard [['a','b']] ['*','b'] false (by decide) (by decide)).mpr
    ⟨['a','b'], by decide, by decide⟩

/-- C5: on the nine-word scenario, `search('*oo', {wildcard})` returns
exactly `foo, boo, goo` in that order, and with `prefix := true` it
additionally returns `fool` and `tool` appended in that order. -/
theorem claim_c5_concrete :
    (trieOf w9).search ['*','o','o'] (some '*') false
        = [['f','o','o'], ['b','o','o'], ['g','o','o']] ∧
      (trieOf w9).search ['*','o','o'] (some '*') true
        = [['f','o','o'], ['b','o','o'], ['g','o','o'],
           ['f','o','o','l'], ['t','o','o','l']] := by
  constructor <;> decide

/-- C6 (amended): with `first`, `search` returns exactly the head of the
enumeration `search` itself produces (level by level, siblings in scan
order), and the no-match sentinel `none` when that enumeration is empty;
the underlying loop stops at the first match.  (The enumeration is not the
depth-first one; see the counterexample.) -/
theorem claim_c6_first (t : PackedTrie) (pat : List Char) (wc : Option Char)
    (pre : Bool) :
    t.searchFirst pat wc pre = (t.search pat wc pre).head? := by
  unfold PackedTrie.searchFirst PackedTrie.search
  exact searchFirstLoop_head t pat wc pre _ _

theorem claim_c6_first_counterexample :
    (trieOf [['a','b'], ['b']]).searchFirst ['*'] (some '*') true = some ['b'] ∧
      ((trieOf [['a','b'], ['b']]).searchDepthFirst ['*'] (some '*') true).head?
        = some ['a','b'] ∧
      some (['b'] : List Char) ≠ some ['a','b'] := by
  refine ⟨by decide, by decide, by decide⟩

/-- C7 (amended): for every character other than the reserved sentinel,
`hasChar(c)` is true exactly when `c` occurs in some word of `W`; and
`hasChar` reads only the alphabet table — two decoders with equal tables
answer identically, whatever their payloads. -/
theorem claim_c7_haschar (W : List (List Char)) (c : Char) (hc : c ≠ SENTINEL) :
    ((trieOf W).hasChar c = true ↔ ∃ w ∈ W, c ∈ w) ∧
      (∀ t1 t2 : PackedTrie, t1.inverseTable = t2.inverseTable →
        t1.hasChar c = t2.hasChar c) := by
  constructor
  · unfold PackedTrie.hasChar
    rw [trieOf_eq]
    show (SENTINEL :: alphabetOf W).contains c = true ↔ _
    rw [← mem_alphabetOf W c]
    simp [List.contains_eq_any_beq, List.any_cons, hc]
  · intro t1 t2 h12
    unfold PackedTrie.hasChar
    rw [h12]

theorem claim_c7_haschar_counterexample :
    (trieOf [['f','o','o']]).hasChar SENTINEL = true ∧
      ¬∃ w ∈ ([['f','o','o']] : List (List Char)), SENTINEL ∈ w := by
  refine ⟨by decide, by decide⟩

theorem claim_c7_haschar_witness :
    (trieOf [['a']]).hasChar 'a' = true :=
  ((claim_c7_haschar [['a']] 'a' (by decide)).1).mpr ⟨['a'], by decide, by decide⟩

/-- C8: for every constructed trie, `test('')` with default options is true
exactly when the root children block itself contains a sentinel-character
sibling (the empty-word marker), and false otherwise. -/
theorem claim_c8_empty (t : PackedTrie) :
    (t.test [] none false = true ↔ ∃ nd ∈ t.childBlock 0, nd.char = SENTINEL) := by
  rw [PackedTrie.test, testFrom]
  simp [blockOfPtr, List.any_eq_true]

/-- C9: within one constructed trie, if the prefix-mode test rejects `s`, it
also rejects `s` extended by any character: lengthening a non-prefix never
makes it a prefix. -/
theorem claim_c9_prefix_mono (t : PackedTrie) (s : List Char) (c : Char)
    (h : t.test s none true = false) : t.test (s ++ [c]) none true = false := by
  cases hres : t.test (s ++ [c]) none true with
  | false => rfl
  | true =>
      exfalso
      rw [PackedTrie.test] at hres h
      rw [testFrom_pre_mono t none s c (some 0) hres] at h
      simp at h

theorem claim_c9_prefix_mono_witness :
    (trieOf [['a']]).test (['b'] ++ ['x']) none true = false :=
  claim_c9_prefix_mono (trieOf [['a']]) ['b'] 'x' (by decide)

/-- C10: for every pointer index, in range or out of range, the record
`getNodeAtPointer` returns carries its `last` flag as a boolean value —
never as a number, although the declared `IPackedTrieNode` interface types
the field as `number`. -/
theorem claim_c10_last_boolean (t : PackedTrie) (i : Nat) :
    ∃ b : Bool, (t.getNodeAtPointer i).last = JSVal.bool b := by
  unfold PackedTrie.getNodeAtPointer
  cases t.payload[i]? with
  | none => exact ⟨false, rfl⟩
  | some word => exact ⟨_, rfl⟩

end TinyTrie

